import Mathlib

/-!
# Verification of the sparse Clenshaw–Curtis quadrature construction

A shallow embedding of `src/sparse_clenshaw_curtis.py` (Smolyak sparse-grid
assembly over one-dimensional Clenshaw–Curtis rules), with theorems settling
the frozen claims about it.

Modelling conventions:
* Python numbers appearing as interval endpoints are modelled by `PyNum`
  (an `int` or a `float`); exact real arithmetic is modelled in `ℚ`.
* Python exceptions are modelled by `Except PyErr`; a raised `ValueError`
  or `TypeError` is an `Except.error` that propagates (nothing in the core
  catches exceptions).
* `itertools.product` is modelled by `cartProd`, in the same
  (lexicographic, first factor slowest) order.
-/

/-- A Python numeric value as far as the core distinguishes them:
an `int` or a `float`.  Rational values stand in for floats since every
claim is about exact arithmetic. -/
inductive PyNum where
  | int : ℤ → PyNum
  | float : ℚ → PyNum
deriving DecidableEq

/-- Numeric value of a `PyNum` (Python compares `int` and `float` numerically). -/
def PyNum.toRat : PyNum → ℚ
  | .int n => (n : ℚ)
  | .float q => q

/-- Whether the value is integer-typed (`type(x) == int` in Python). -/
def PyNum.isInt : PyNum → Bool
  | .int _ => true
  | .float _ => false

/-- The two exception kinds the core can raise. -/
inductive PyErr where
  | valueError : PyErr
  | typeError : PyErr
deriving DecidableEq

instance {ε α : Type} [DecidableEq ε] [DecidableEq α] : DecidableEq (Except ε α)
  | .ok a, .ok b =>
    if h : a = b then .isTrue (by rw [h]) else .isFalse (by simp [h])
  | .ok _, .error _ => .isFalse (by simp)
  | .error _, .ok _ => .isFalse (by simp)
  | .error e, .error f =>
    if h : e = f then .isTrue (by rw [h]) else .isFalse (by simp [h])

/-- `itertools.product(*ls)`: the Cartesian product of a list of lists,
in lexicographic order with the first factor varying slowest. -/
def cartProd {α : Type} : List (List α) → List (List α)
  | [] => [[]]
  | xs :: rest => xs.flatMap (fun x => (cartProd rest).map (x :: ·))

/-- `index_set(dim, level)` from `src/sparse_clenshaw_curtis.py`:
all `dim`-tuples over `range(1, level + dim + 1)` whose component sum `s`
satisfies `level + 1 <= s <= level + dim`. -/
def index_set (dim level : ℕ) : List (List ℕ) :=
  (cartProd (List.replicate dim (List.range' 1 (level + dim)))).filter
    (fun idx => decide (level + 1 ≤ idx.sum ∧ idx.sum ≤ level + dim))

/-- `closed_non_linear_growth_rule(level)` from `src/sparse_clenshaw_curtis.py`:
raises `ValueError` for `level < 1`, returns `1` for `level == 1` and
`2^(level-1) + 1` otherwise. -/
def closed_non_linear_growth_rule (level : ℤ) : Except PyErr ℤ :=
  if level < 1 then .error .valueError
  else if level = 1 then .ok 1
  else .ok (2 ^ (level - 1).toNat + 1)

/-- Modelled from the spec: the one-dimensional Clenshaw–Curtis rule provider
(`modepy`'s `_make_clenshaw_curtis_nodes_and_weights`, an external collaborator
whose source is not part of this repository).  Per the spec the provider
returns, for level `l ≥ 1`, `closed_non_linear_growth_rule l` cosine-spaced
nodes in `[-1, 1]` together with weights summing to `2`.  Levels `1` and `2`
(the only levels whose rules have rational nodes and the only ones the
concrete claims evaluate) are modelled exactly: the one-point midpoint rule
`({0}, {2})` and the three-point rule `({-1, 0, 1}, {1/3, 4/3, 1/3})`.
For `l ≥ 3` the Chebyshev nodes are irrational; those levels are modelled
only up to the spec's point-count and weight-sum contract. -/
def clenshaw_curtis_rule (level : ℕ) : List ℚ × List ℚ :=
  if level ≤ 1 then ([0], [2])
  else if level = 2 then ([-1, 0, 1], [1/3, 4/3, 1/3])
  else
    (List.replicate (2 ^ (level - 1) + 1) 0,
     List.replicate (2 ^ (level - 1) + 1) (2 / (2 ^ (level - 1) + 1 : ℚ)))

/-- The affine map `x' = (b-a)/2 * x + (a+b)/2` from `[-1,1]` onto `[a,b]`. -/
def affineMap (a b x : ℚ) : ℚ := (b - a) / 2 * x + (a + b) / 2

/-- `tensor_product_rule(indices, one_d_rule, a, b)` from
`src/sparse_clenshaw_curtis.py`: checks `a < b` (else `ValueError`), then that
both endpoints are `int`-typed (else `TypeError`); builds the Cartesian
product of the per-dimension nodes and the per-tuple products of the
per-dimension weights; and, unless the domain is exactly `[-1, 1]`, remaps
every coordinate affinely onto `[a, b]` and rescales every weight by
`((b-a)/2)^len(indices)`. -/
def tensor_product_rule (indices : List ℕ) (one_d_rule : ℕ → List ℚ × List ℚ)
    (a b : PyNum) : Except PyErr (List (List ℚ) × List ℚ) :=
  if ¬ a.toRat < b.toRat then .error .valueError
  else if ¬ (a.isInt && b.isInt) then .error .typeError
  else
    let pts_1d := indices.map (fun l => (one_d_rule l).1)
    let wts_1d := indices.map (fun l => (one_d_rule l).2)
    let grid := cartProd pts_1d
    let weights := (cartProd wts_1d).map List.prod
    if ¬ (a.toRat = -1 ∧ b.toRat = 1) then
      .ok (grid.map (List.map (affineMap a.toRat b.toRat)),
           weights.map (· * ((b.toRat - a.toRat) / 2) ^ indices.length))
    else
      .ok (grid, weights)

/-- The Smolyak combination coefficient computed inline in
`sparse_grid_nodes_weights`:
`(-1) ** (level + dim - sum(idx)) * comb(dim - 1, level + dim - sum(idx))`
(on the index set `sum idx ≤ level + dim`, so the truncated natural
subtraction agrees with Python's integer subtraction). -/
def smolyakCoeff (dim level : ℕ) (idx : List ℕ) : ℚ :=
  (-1 : ℚ) ^ (level + dim - idx.sum) *
    ((dim - 1).choose (level + dim - idx.sum) : ℚ)

/-- The accumulation loop of `sparse_grid_nodes_weights`: for each
multi-index in turn, build its tensor-product rule and append its points and
its coefficient-scaled weights; the first raised exception propagates. -/
def sparse_collect (one_d_rule : ℕ → List ℚ × List ℚ) (dim level : ℕ)
    (a b : PyNum) : List (List ℕ) → Except PyErr (List (List ℚ) × List ℚ)
  | [] => .ok ([], [])
  | idx :: rest =>
    match tensor_product_rule idx one_d_rule a b with
    | .error e => .error e
    | .ok (x, w) =>
      match sparse_collect one_d_rule dim level a b rest with
      | .error e => .error e
      | .ok (ps, ws) =>
        .ok (x ++ ps, w.map (fun wi => smolyakCoeff dim level idx * wi) ++ ws)

/-- `sparse_grid_nodes_weights(dim, level, a, b)` generalised over the
one-dimensional rule provider (the source hardwires `clenshaw_curtis_rule`;
the provider is the injected collaborator of the spec's §4.2/§9). -/
def sparse_grid_with (one_d_rule : ℕ → List ℚ × List ℚ) (dim level : ℕ)
    (a b : PyNum) : Except PyErr (List (List ℚ) × List ℚ) :=
  sparse_collect one_d_rule dim level a b (index_set dim level)

/-- `sparse_grid_nodes_weights(dim, level, a, b)` from
`src/sparse_clenshaw_curtis.py` (defaults `a = 0`, `b = 1`). -/
def sparse_grid_nodes_weights (dim level : ℕ) (a b : PyNum) :
    Except PyErr (List (List ℚ) × List ℚ) :=
  sparse_grid_with clenshaw_curtis_rule dim level a b

/-- The point list `tensor_product_rule` returns on a valid domain:
every Cartesian-product point remapped coordinate-wise by `affineMap a b`. -/
def tensorPoints (one_d_rule : ℕ → List ℚ × List ℚ) (a b : ℚ)
    (indices : List ℕ) : List (List ℚ) :=
  (cartProd (indices.map (fun l => (one_d_rule l).1))).map
    (List.map (affineMap a b))

/-- The weight list `tensor_product_rule` returns on a valid domain:
every per-tuple product of one-dimensional weights rescaled by
`((b-a)/2)^len(indices)`. -/
def tensorWeights (one_d_rule : ℕ → List ℚ × List ℚ) (a b : ℚ)
    (indices : List ℕ) : List ℚ :=
  ((cartProd (indices.map (fun l => (one_d_rule l).2))).map List.prod).map
    (· * ((b - a) / 2) ^ indices.length)

/-- Number of tuples in `l` whose component sum is exactly `s`. -/
def cntSum (l : List (List ℕ)) (s : ℕ) : ℕ :=
  (l.map (fun idx => if idx.sum = s then 1 else 0)).sum

/-- The alternating binomial sum `∑_{j≤n} (-1)^j C(n,j) C(x-j,n)`:
the `n`-th finite difference of `C(·,n)` at `x`, which equals `1`
whenever `n ≤ x`.  This is the combinatorial heart of the Smolyak
partition-of-volume invariant. -/
def Gsum (n x : ℕ) : ℚ :=
  ∑ j ∈ Finset.range (n + 1),
    (-1 : ℚ) ^ j * (n.choose j : ℚ) * ((x - j).choose n : ℚ)

/-! ## Basic facts about `cartProd`, `List.range'` and the index set -/

theorem mem_range'_iff {m s n : ℕ} : m ∈ List.range' s n ↔ s ≤ m ∧ m < s + n := by
  rw [List.mem_range']
  constructor
  · rintro ⟨i, hi, rfl⟩
    omega
  · intro h
    exact ⟨m - s, by omega, by omega⟩

theorem cartProd_singleton {α : Type} (xs : List α) :
    cartProd [xs] = xs.map (fun x => [x]) := by
  induction xs with
  | nil => rfl
  | cons x xs ih => simp_all [cartProd]

theorem mem_cartProd_replicate {α : Type} (xs : List α) :
    ∀ (d : ℕ) (l : List α),
      l ∈ cartProd (List.replicate d xs) ↔ l.length = d ∧ ∀ x ∈ l, x ∈ xs := by
  intro d
  induction d with
  | zero =>
    intro l
    simp only [List.replicate, cartProd, List.mem_singleton]
    constructor
    · rintro rfl
      simp
    · rintro ⟨hl, _⟩
      exact List.eq_nil_of_length_eq_zero hl
  | succ d ih =>
    intro l
    simp only [List.replicate_succ, cartProd, List.mem_flatMap, List.mem_map]
    constructor
    · rintro ⟨x, hx, t, ht, rfl⟩
      obtain ⟨hlen, hmem⟩ := (ih t).1 ht
      refine ⟨by simp [hlen], ?_⟩
      intro y hy
      rcases List.mem_cons.1 hy with rfl | hy
      · exact hx
      · exact hmem y hy
    · rintro ⟨hlen, hmem⟩
      match l with
      | [] => simp at hlen
      | y :: t =>
        refine ⟨y, hmem y (List.mem_cons_self y t), t, (ih t).2 ⟨by simpa using hlen, ?_⟩, rfl⟩
        intro x hx
        exact hmem x (List.mem_cons_of_mem y hx)

theorem mem_index_set_iff {dim level : ℕ} {idx : List ℕ} :
    idx ∈ index_set dim level ↔
      (idx.length = dim ∧ ∀ c ∈ idx, 1 ≤ c ∧ c ≤ level + dim) ∧
        level + 1 ≤ idx.sum ∧ idx.sum ≤ level + dim := by
  unfold index_set
  rw [List.mem_filter, mem_cartProd_replicate]
  simp only [mem_range'_iff, decide_eq_true_eq]
  constructor
  · rintro ⟨⟨hlen, hmem⟩, hsum⟩
    exact ⟨⟨hlen, fun c hc => by have := hmem c hc; omega⟩, hsum⟩
  · rintro ⟨⟨hlen, hmem⟩, hsum⟩
    exact ⟨⟨hlen, fun c hc => by have := hmem c hc; omega⟩, hsum⟩

/-! ## Claims about the growth rule, the index set and error handling -/

/-- C4: `closed_non_linear_growth_rule` returns `1` for `level == 1` and
`2^(level-1) + 1` for every `level ≥ 2` (so `3`, `5`, `9` for levels
`2`, `3`, `4`), and raises `ValueError` for every `level < 1`. -/
theorem growth_rule_spec :
    (∀ level : ℤ,
      (level < 1 → closed_non_linear_growth_rule level = .error .valueError) ∧
      (level = 1 → closed_non_linear_growth_rule level = .ok 1) ∧
      (2 ≤ level →
        closed_non_linear_growth_rule level = .ok (2 ^ (level - 1).toNat + 1))) ∧
    closed_non_linear_growth_rule 2 = .ok 3 ∧
    closed_non_linear_growth_rule 3 = .ok 5 ∧
    closed_non_linear_growth_rule 4 = .ok 9 := by
  refine ⟨?_, by decide, by decide, by decide⟩
  intro level
  refine ⟨fun h => ?_, fun h => ?_, fun h => ?_⟩
  · rw [closed_non_linear_growth_rule, if_pos h]
  · subst h
    decide
  · rw [closed_non_linear_growth_rule, if_neg (by omega), if_neg (by omega)]

theorem growth_rule_spec_witness :
    closed_non_linear_growth_rule 0 = .error .valueError ∧
    closed_non_linear_growth_rule 1 = .ok 1 ∧
    closed_non_linear_growth_rule 4 = .ok (2 ^ ((4 : ℤ) - 1).toNat + 1) :=
  ⟨(growth_rule_spec.1 0).1 (by decide), (growth_rule_spec.1 1).2.1 rfl,
   (growth_rule_spec.1 4).2.2 (by decide)⟩

/-- C6 counterexample: the claim says the level-2 rule has exactly 1 point,
but the growth rule yields `2^(2-1) + 1 = 3` points at level 2. -/
theorem growth_level_two_not_one :
    closed_non_linear_growth_rule 2 ≠ .ok 1 := by
  decide

/-- C6 amended: the level-1 rule has exactly 1 point, while the level-2 rule
has 3 points (the spec's own §4.1/§8 growth contract): the growth rule yields
1 at level 1 and 3 at level 2, not 1 at both. -/
theorem growth_level_one_and_two :
    closed_non_linear_growth_rule 1 = .ok 1 ∧
    closed_non_linear_growth_rule 2 = .ok 3 := by
  decide

/-- C5 counterexample: `index_set(2, 3)` has 7 elements, not 4 (the 2-tuples
from `[1,5]` with component sum in `[4,5]` are `(1,3),(1,4),(2,2),(2,3),
(3,1),(3,2),(4,1)`). -/
theorem index_set_two_three_size_not_four :
    ¬ (index_set 2 3).length = 4 := by
  decide

/-- C5 amended: `index_set(2, 3)` has exactly 7 elements, and for every
`L ≥ 1`, `index_set(1, L)` is exactly the single multi-index `(L+1,)`
(not `(L,)`: in one dimension the selection rule `L+1 ≤ s ≤ L+1` keeps
exactly the tuple with sum `L+1`). -/
theorem index_set_sizes :
    (index_set 2 3).length = 7 ∧
    ∀ L : ℕ, 1 ≤ L → index_set 1 L = [[L + 1]] := by
  refine ⟨by decide, ?_⟩
  intro L _
  unfold index_set
  rw [show List.replicate 1 (List.range' 1 (L + 1)) = [List.range' 1 (L + 1)] from rfl,
    cartProd_singleton, List.filter_map]
  have hfilter : (List.range' 1 (L + 1)).filter
      (fun x => decide (L + 1 ≤ [x].sum ∧ [x].sum ≤ L + 1)) = [L + 1] := by
    have hsplit : List.range' 1 (L + 1) = List.range' 1 L ++ [1 + L] :=
      List.range'_1_concat 1 L
    rw [hsplit, List.filter_append]
    have h1 : (List.range' 1 L).filter
        (fun x => decide (L + 1 ≤ [x].sum ∧ [x].sum ≤ L + 1)) = [] := by
      apply List.filter_eq_nil_iff.2
      intro x hx
      have := mem_range'_iff.1 hx
      simp only [List.sum_cons, List.sum_nil, decide_eq_true_eq]
      omega
    have h2 : (([1 + L] : List ℕ)).filter
        (fun x => decide (L + 1 ≤ [x].sum ∧ [x].sum ≤ L + 1)) = [1 + L] := by
      simp
      omega
    rw [h1, h2]
    simp [Nat.add_comm]
  simp only [Function.comp_def]
  rw [hfilter]
  rfl

theorem index_set_sizes_witness : index_set 1 3 = [[3 + 1]] :=
  index_set_sizes.2 3 (by decide)

/-- C2: for every `dim ≥ 1` and `level ≥ 1`, `index_set(dim, level)` returns
exactly the `dim`-tuples of integers whose components lie in
`[1, level + dim]` and whose component sum `s` satisfies
`level + 1 ≤ s ≤ level + dim`: membership in the returned list is equivalent
to these conditions. -/
theorem index_set_characterization (dim level : ℕ) (_hdim : 1 ≤ dim)
    (_hlevel : 1 ≤ level) (idx : List ℕ) :
    idx ∈ index_set dim level ↔
      idx.length = dim ∧ (∀ c ∈ idx, 1 ≤ c ∧ c ≤ level + dim) ∧
        level + 1 ≤ idx.sum ∧ idx.sum ≤ level + dim := by
  rw [mem_index_set_iff, and_assoc]

theorem index_set_characterization_witness :
    [1, 2] ∈ index_set 2 1 ↔
      [1, 2].length = 2 ∧ (∀ c ∈ [1, 2], 1 ≤ c ∧ c ≤ 1 + 2) ∧
        1 + 1 ≤ [1, 2].sum ∧ [1, 2].sum ≤ 1 + 2 :=
  index_set_characterization 2 1 (by decide) (by decide) [1, 2]

/-- C9: `tensor_product_rule` raises `ValueError` whenever `a >= b`, raises
`TypeError` whenever `a < b` but `a` or `b` is not integer-typed, and raises
neither for integer `a < b`; the error is decided before any rule is built
(it depends only on `a`, `b`) and propagates uncaught through the sparse-grid
assembly. -/
theorem tensor_rule_error_behavior (indices : List ℕ)
    (one_d_rule : ℕ → List ℚ × List ℚ) (a b : PyNum) :
    (b.toRat ≤ a.toRat →
      tensor_product_rule indices one_d_rule a b = .error .valueError) ∧
    (a.toRat < b.toRat → ¬(a.isInt = true ∧ b.isInt = true) →
      tensor_product_rule indices one_d_rule a b = .error .typeError) ∧
    (a.isInt = true → b.isInt = true → a.toRat < b.toRat →
      ∃ grid weights,
        tensor_product_rule indices one_d_rule a b = .ok (grid, weights)) ∧
    (∀ dim level : ℕ, index_set dim level ≠ [] → b.toRat ≤ a.toRat →
      sparse_grid_with one_d_rule dim level a b = .error .valueError) := by
  have hval : ∀ h : b.toRat ≤ a.toRat,
      tensor_product_rule indices one_d_rule a b = .error .valueError := by
    intro h
    rw [tensor_product_rule, if_pos (not_lt.2 h)]
  refine ⟨hval, fun h1 h2 => ?_, fun ha hb h1 => ?_, fun dim level hne h => ?_⟩
  · rw [tensor_product_rule, if_neg (not_not_intro h1),
      if_pos (by simp only [Bool.and_eq_true]; exact h2)]
  · rw [tensor_product_rule, if_neg (not_not_intro h1),
      if_neg (not_not_intro (by simp [ha, hb]))]
    split
    · exact ⟨_, _, rfl⟩
    · exact ⟨_, _, rfl⟩
  · rcases hidx : index_set dim level with _ | ⟨idx, rest⟩
    · exact absurd hidx hne
    · have herr := hval h
      rw [sparse_grid_with, hidx, sparse_collect]
      have : tensor_product_rule idx one_d_rule a b = .error .valueError := by
        clear herr
        rw [tensor_product_rule, if_pos (not_lt.2 h)]
      rw [this]

theorem tensor_rule_error_behavior_witness :
    tensor_product_rule [1] (fun _ => ([0], [2])) (.int 1) (.int 0) =
      .error .valueError ∧
    tensor_product_rule [1] (fun _ => ([0], [2])) (.float 0) (.int 1) =
      .error .typeError ∧
    ∃ grid weights,
      tensor_product_rule [1] (fun _ => ([0], [2])) (.int 0) (.int 1) =
        .ok (grid, weights) :=
  ⟨(tensor_rule_error_behavior [1] (fun _ => ([0], [2])) (.int 1) (.int 0)).1
      (by simp [PyNum.toRat]),
   (tensor_rule_error_behavior [1] (fun _ => ([0], [2])) (.float 0) (.int 1)).2.1
      (by simp [PyNum.toRat]) (by simp [PyNum.isInt]),
   (tensor_rule_error_behavior [1] (fun _ => ([0], [2])) (.int 0) (.int 1)).2.2.1
      rfl rfl (by simp [PyNum.toRat])⟩

/-- C10: in `tensor_product_rule` the domain check precedes the type check:
whenever `a >= b` numerically, `ValueError` is raised even if `a` or `b` is
not integer-typed. -/
theorem domain_check_precedes_type_check (indices : List ℕ)
    (one_d_rule : ℕ → List ℚ × List ℚ) (a b : PyNum)
    (h : b.toRat ≤ a.toRat) :
    tensor_product_rule indices one_d_rule a b = .error .valueError := by
  rw [tensor_product_rule, if_pos (not_lt.2 h)]

theorem domain_check_precedes_type_check_witness :
    tensor_product_rule [1] (fun _ => ([0], [2])) (.float 1) (.float 0) =
      .error .valueError :=
  domain_check_precedes_type_check [1] (fun _ => ([0], [2]))
    (.float 1) (.float 0) (by simp [PyNum.toRat])

/-- C8 counterexample: the sparse grid for `dim=1, level=1` on `[0,2]` is not
the single midpoint node with weight 2: the one-dimensional index set at
level 1 is `{(2,)}` (not `{(1,)}`), so the level-2 three-point rule is used. -/
theorem sparse_dim1_level1_zero_two_not_midpoint :
    sparse_grid_nodes_weights 1 1 (.int 0) (.int 2) ≠ .ok ([[1]], [2]) := by
  have hval : sparse_grid_nodes_weights 1 1 (.int 0) (.int 2) =
      .ok ([[0], [1], [2]], [1/3, 4/3, 1/3]) := by
    norm_num [sparse_grid_nodes_weights, sparse_grid_with, index_set, cartProd,
      sparse_collect, tensor_product_rule, clenshaw_curtis_rule, smolyakCoeff,
      affineMap, PyNum.toRat, PyNum.isInt, List.range', List.filter,
      List.replicate]
  rw [hval]
  simp

/-- C8 amended: the sparse grid rule for `dim=1, level=1` on `[0,2]` consists
of the three nodes `0`, `1`, `2` with weights `1/3`, `4/3`, `1/3` (the level-2
Clenshaw–Curtis rule mapped affinely onto `[0,2]`; the multi-index selected is
`(2,)`, and the weights still sum to the volume `2`). -/
theorem sparse_dim1_level1_zero_two :
    sparse_grid_nodes_weights 1 1 (.int 0) (.int 2) =
      .ok ([[0], [1], [2]], [1/3, 4/3, 1/3]) := by
  norm_num [sparse_grid_nodes_weights, sparse_grid_with, index_set, cartProd,
    sparse_collect, tensor_product_rule, clenshaw_curtis_rule, smolyakCoeff,
    affineMap, PyNum.toRat, PyNum.isInt, List.range', List.filter,
    List.replicate]

/-! ## Summation machinery for the Cartesian product and the Smolyak sum -/

theorem sum_map_flatMap {α β M : Type} [AddCommMonoid M] (l : List α)
    (g : α → List β) (f : β → M) :
    ((l.flatMap g).map f).sum = (l.map (fun a => ((g a).map f).sum)).sum := by
  induction l with
  | nil => rfl
  | cons a l ih => simp [List.flatMap_cons, ih]

theorem sum_map_prod_cartProd (ls : List (List ℚ)) :
    ((cartProd ls).map List.prod).sum = (ls.map List.sum).prod := by
  induction ls with
  | nil => simp [cartProd]
  | cons xs rest ih =>
    rw [cartProd, sum_map_flatMap]
    have hinner : ∀ x : ℚ,
        ((((cartProd rest).map (x :: ·)).map List.prod)).sum =
          x * ((cartProd rest).map List.prod).sum := by
      intro x
      rw [List.map_map]
      have : (List.prod ∘ (x :: ·) : List ℚ → ℚ) =
          (fun t : List ℚ => x * t.prod) := by
        funext t
        simp
      rw [this, ← List.sum_map_mul_left]
    calc (xs.map (fun x => (((cartProd rest).map (x :: ·)).map List.prod).sum)).sum
        = (xs.map (fun x => x * ((cartProd rest).map List.prod).sum)).sum := by
          apply congrArg
          exact List.map_congr_left (fun x _ => hinner x)
      _ = (xs.map id).sum * ((cartProd rest).map List.prod).sum := by
          rw [← List.sum_map_mul_right]
          apply congrArg
          apply List.map_congr_left
          intro x _
          rfl
      _ = (xs.sum) * ((rest.map List.sum).prod) := by rw [List.map_id, ih]
      _ = ((xs :: rest).map List.sum).prod := by simp

theorem affineMap_neg_one_one : affineMap (-1) 1 = fun x : ℚ => x := by
  funext x
  unfold affineMap
  ring

theorem tensor_product_rule_ok (indices : List ℕ)
    (one_d_rule : ℕ → List ℚ × List ℚ) (a b : ℤ) (h : a < b) :
    tensor_product_rule indices one_d_rule (.int a) (.int b) =
      .ok (tensorPoints one_d_rule (a : ℚ) (b : ℚ) indices,
           tensorWeights one_d_rule (a : ℚ) (b : ℚ) indices) := by
  have hlt : ((a : ℚ)) < (b : ℚ) := by exact_mod_cast h
  rw [tensor_product_rule]
  simp only [PyNum.toRat, PyNum.isInt, Bool.and_true]
  rw [if_neg (not_not_intro hlt), if_neg (by simp)]
  by_cases hc : ((a : ℚ) = -1 ∧ (b : ℚ) = 1)
  · rw [if_neg (not_not_intro hc)]
    obtain ⟨ha, hb⟩ := hc
    have hpts : tensorPoints one_d_rule (a : ℚ) (b : ℚ) indices =
        cartProd (indices.map (fun l => (one_d_rule l).1)) := by
      rw [tensorPoints, ha, hb, affineMap_neg_one_one]
      have : (List.map (fun x : ℚ => x)) = (fun l : List ℚ => l) := by
        funext l
        exact List.map_id' l
      rw [this]
      exact List.map_id _
    have hwts : tensorWeights one_d_rule (a : ℚ) (b : ℚ) indices =
        (cartProd (indices.map (fun l => (one_d_rule l).2))).map List.prod := by
      rw [tensorWeights, ha, hb]
      norm_num
    rw [hpts, hwts]
  · rw [if_pos hc]
    rfl

theorem sparse_collect_ok (one_d_rule : ℕ → List ℚ × List ℚ) (dim level : ℕ)
    (a b : ℤ) (h : a < b) :
    ∀ L : List (List ℕ),
      sparse_collect one_d_rule dim level (.int a) (.int b) L =
        .ok (L.flatMap (fun idx => tensorPoints one_d_rule (a : ℚ) (b : ℚ) idx),
             L.flatMap (fun idx =>
               (tensorWeights one_d_rule (a : ℚ) (b : ℚ) idx).map
                 (fun wi => smolyakCoeff dim level idx * wi))) := by
  intro L
  induction L with
  | nil => rfl
  | cons idx rest ih =>
    rw [sparse_collect, tensor_product_rule_ok idx one_d_rule a b h, ih]
    simp [List.flatMap_cons]

theorem sum_map_mul_const (l : List ℚ) (r : ℚ) :
    (l.map (fun x => x * r)).sum = l.sum * r := by
  induction l with
  | nil => simp
  | cons x l ih => simp [ih, add_mul]

theorem sum_map_const_mul (l : List ℚ) (r : ℚ) :
    (l.map (fun x => r * x)).sum = r * l.sum := by
  induction l with
  | nil => simp
  | cons x l ih => simp [ih, mul_add]

theorem tensorWeights_sum (one_d_rule : ℕ → List ℚ × List ℚ) (a b : ℚ)
    (indices : List ℕ) (hw : ∀ l ∈ indices, ((one_d_rule l).2).sum = 2) :
    (tensorWeights one_d_rule a b indices).sum =
      ((b - a) / 2) ^ indices.length * 2 ^ indices.length := by
  rw [tensorWeights, sum_map_mul_const, sum_map_prod_cartProd, List.map_map]
  have : (indices.map (List.sum ∘ fun l => (one_d_rule l).2)) =
      indices.map (fun _ => (2 : ℚ)) := by
    apply List.map_congr_left
    intro l hl
    exact hw l hl
  rw [this, List.map_const']
  rw [List.prod_replicate, mul_comm]

theorem sum_map_range {M : Type} [AddCommMonoid M] (f : ℕ → M) :
    ∀ n : ℕ, ((List.range n).map f).sum = ∑ i ∈ Finset.range n, f i := by
  intro n
  induction n with
  | zero => simp
  | succ n ih =>
    rw [List.range_succ, List.map_append, List.sum_append, ih,
      Finset.sum_range_succ]
    simp

theorem sum_range_choose_hockey (d : ℕ) :
    ∀ m : ℕ, ∑ i ∈ Finset.range m, i.choose d = m.choose (d + 1) := by
  intro m
  induction m with
  | zero => simp [Nat.choose_eq_zero_of_lt]
  | succ m ih =>
    rw [Finset.sum_range_succ, ih, Nat.choose_succ_succ m d, Nat.add_comm]

theorem sum_indicator_range' :
    ∀ B s : ℕ, 1 ≤ s → s ≤ B →
      ((List.range' 1 B).map (fun x => if x = s then (1 : ℕ) else 0)).sum = 1 := by
  intro B
  induction B with
  | zero =>
    intro s hs1 hsB
    omega
  | succ B ih =>
    intro s hs1 hsB
    rw [List.range'_1_concat, List.map_append, List.sum_append]
    by_cases hcase : s ≤ B
    · rw [ih s hs1 hcase]
      have : ((([1 + B] : List ℕ)).map (fun x => if x = s then (1 : ℕ) else 0)).sum = 0 := by
        simp only [List.map_cons, List.map_nil, List.sum_cons, List.sum_nil]
        rw [if_neg (by omega)]
        rfl
      rw [this]
    · have hs : s = 1 + B := by omega
      have hzero : ((List.range' 1 B).map
          (fun x => if x = s then (1 : ℕ) else 0)).sum = 0 := by
        apply List.sum_eq_zero
        intro n hn
        rw [List.mem_map] at hn
        obtain ⟨x, hx, rfl⟩ := hn
        have := mem_range'_iff.1 hx
        rw [if_neg (by omega)]
      rw [hzero]
      simp only [List.map_cons, List.map_nil, List.sum_cons, List.sum_nil]
      rw [if_pos hs.symm]
      rfl

theorem cntSum_cartProd (B : ℕ) :
    ∀ d s : ℕ, 1 ≤ s → s ≤ B →
      cntSum (cartProd (List.replicate (d + 1) (List.range' 1 B))) s =
        (s - 1).choose d := by
  intro d
  induction d with
  | zero =>
    intro s hs1 hsB
    rw [show List.replicate 1 (List.range' 1 B) = [List.range' 1 B] from rfl,
      cartProd_singleton, cntSum, List.map_map]
    have hfun : ((fun idx : List ℕ => if idx.sum = s then (1 : ℕ) else 0) ∘
        fun x : ℕ => [x]) = fun x : ℕ => if x = s then (1 : ℕ) else 0 := by
      funext x
      simp
    rw [hfun, sum_indicator_range' B s hs1 hsB]
    simp
  | succ d ih =>
    intro s hs1 hsB
    rw [List.replicate_succ, cartProd, cntSum, sum_map_flatMap]
    have hinner : ∀ x ∈ List.range' 1 B,
        (((cartProd (List.replicate (d + 1) (List.range' 1 B))).map (x :: ·)).map
            (fun idx => if idx.sum = s then (1 : ℕ) else 0)).sum =
          if x + 1 ≤ s then (s - x - 1).choose d else 0 := by
      intro x hx
      rw [List.map_map]
      have hcomp : ((fun idx : List ℕ => if idx.sum = s then (1 : ℕ) else 0) ∘
          (x :: ·)) = fun t : List ℕ => if x + t.sum = s then (1 : ℕ) else 0 := by
        funext t
        simp
      rw [hcomp]
      by_cases hxs : x + 1 ≤ s
      · rw [if_pos hxs]
        have hshift : (fun t : List ℕ => if x + t.sum = s then (1 : ℕ) else 0)
            = fun t : List ℕ => if t.sum = s - x then (1 : ℕ) else 0 := by
          funext t
          exact if_congr (by omega) rfl rfl
        rw [hshift]
        have hres := ih (s - x) (by omega) (by omega)
        rw [cntSum] at hres
        rw [hres]
      · rw [if_neg hxs]
        apply List.sum_eq_zero
        intro n hn
        rw [List.mem_map] at hn
        obtain ⟨t, ht, rfl⟩ := hn
        obtain ⟨hlen, hmem⟩ := (mem_cartProd_replicate _ _ t).1 ht
        have hts : t.length ≤ t.sum :=
          List.length_le_sum_of_one_le t
            (fun i hi => (mem_range'_iff.1 (hmem i hi)).1)
        rw [if_neg (by omega)]
    rw [List.map_congr_left hinner, List.range'_eq_map_range, List.map_map,
      sum_map_range]
    have hrw : ∀ i : ℕ,
        ((fun x => if x + 1 ≤ s then (s - x - 1).choose d else 0) ∘
          (fun i => 1 + i)) i = if i + 2 ≤ s then (s - i - 2).choose d else 0 := by
      intro i
      simp only [Function.comp_apply]
      by_cases h : i + 2 ≤ s
      · rw [if_pos (by omega), if_pos h]
        congr 1
        omega
      · rw [if_neg (by omega), if_neg h]
    rw [Finset.sum_congr rfl (fun i _ => hrw i)]
    have hsubset : Finset.range (s - 1) ⊆ Finset.range B :=
      Finset.range_subset.2 (by omega)
    rw [← Finset.sum_subset hsubset
      (fun i _ hni => if_neg (by simp at hni; omega))]
    have hpos : ∀ i ∈ Finset.range (s - 1),
        (if i + 2 ≤ s then (s - i - 2).choose d else 0) =
          ((s - 1) - 1 - i).choose d := by
      intro i hi
      rw [Finset.mem_range] at hi
      rw [if_pos (by omega)]
      congr 1
      omega
    rw [Finset.sum_congr rfl hpos, Finset.sum_range_reflect
      (fun j => j.choose d) (s - 1), sum_range_choose_hockey]

theorem sum_flatMap {α M : Type} [AddCommMonoid M] (l : List α)
    (g : α → List M) :
    (l.flatMap g).sum = (l.map (fun a => (g a).sum)).sum := by
  induction l with
  | nil => rfl
  | cons a l ih => simp [List.flatMap_cons, ih]

theorem sum_map_fn_mul_const {α : Type} (l : List α) (f : α → ℚ) (r : ℚ) :
    (l.map (fun a => f a * r)).sum = (l.map f).sum * r := by
  induction l with
  | nil => simp
  | cons a l ih => simp [ih, add_mul]

theorem cast_cntSum_cons (a : List ℕ) (l : List (List ℕ)) (s : ℕ) :
    (cntSum (a :: l) s : ℚ) =
      (if a.sum = s then (1 : ℚ) else 0) + (cntSum l s : ℚ) := by
  rw [cntSum, List.map_cons, List.sum_cons, Nat.cast_add]
  congr 1
  split <;> simp

theorem filter_sum_group (f : ℕ → ℚ) (lo hi : ℕ) :
    ∀ l : List (List ℕ),
      ((l.filter (fun idx => decide (lo ≤ idx.sum ∧ idx.sum ≤ hi))).map
        (fun idx => f idx.sum)).sum =
      ∑ s ∈ Finset.Icc lo hi, (cntSum l s : ℚ) * f s := by
  intro l
  induction l with
  | nil => simp [cntSum]
  | cons a l ih =>
    have hsplit : ∑ s ∈ Finset.Icc lo hi, (cntSum (a :: l) s : ℚ) * f s =
        (if a.sum ∈ Finset.Icc lo hi then f a.sum else 0) +
          ∑ s ∈ Finset.Icc lo hi, (cntSum l s : ℚ) * f s := by
      have hterm : ∀ s ∈ Finset.Icc lo hi, (cntSum (a :: l) s : ℚ) * f s =
          (if a.sum = s then f s else 0) + (cntSum l s : ℚ) * f s := by
        intro s _
        rw [cast_cntSum_cons, add_mul, ite_mul, one_mul, zero_mul]
      rw [Finset.sum_congr rfl hterm, Finset.sum_add_distrib,
        Finset.sum_ite_eq]
    rw [List.filter_cons]
    by_cases hc : lo ≤ a.sum ∧ a.sum ≤ hi
    · rw [if_pos (by simpa using hc), List.map_cons, List.sum_cons, ih, hsplit,
        if_pos (Finset.mem_Icc.2 hc)]
    · rw [if_neg (by simpa using hc), ih, hsplit,
        if_neg (fun hmem => hc (Finset.mem_Icc.1 hmem)), zero_add]

theorem Gsum_zero (x : ℕ) : Gsum 0 x = 1 := by
  rw [Gsum]
  simp

theorem Gsum_succ_step (n x : ℕ) (h : n + 1 ≤ x) :
    Gsum (n + 1) x = Gsum n (x - 1) := by
  have hsplit : ∀ j ∈ Finset.range (n + 2),
      (-1 : ℚ) ^ j * ((n + 1).choose j : ℚ) * ((x - j).choose (n + 1) : ℚ) =
        (-1 : ℚ) ^ j * (n.choose j : ℚ) * ((x - j).choose (n + 1) : ℚ) +
          (-1 : ℚ) ^ j * (if j = 0 then (0 : ℚ) else (n.choose (j - 1) : ℚ)) *
            ((x - j).choose (n + 1) : ℚ) := by
    intro j _
    match j with
    | 0 => simp
    | k + 1 =>
      rw [if_neg (Nat.succ_ne_zero k), Nat.add_sub_cancel,
        Nat.choose_succ_succ n k]
      push_cast
      ring
  have hu : ∑ j ∈ Finset.range (n + 2),
      (-1 : ℚ) ^ j * (n.choose j : ℚ) * ((x - j).choose (n + 1) : ℚ) =
      ∑ j ∈ Finset.range (n + 1),
        (-1 : ℚ) ^ j * (n.choose j : ℚ) * ((x - j).choose (n + 1) : ℚ) := by
    rw [Finset.sum_range_succ, Nat.choose_succ_self]
    simp
  have hw : ∑ j ∈ Finset.range (n + 2),
      (-1 : ℚ) ^ j * (if j = 0 then (0 : ℚ) else (n.choose (j - 1) : ℚ)) *
        ((x - j).choose (n + 1) : ℚ) =
      - ∑ k ∈ Finset.range (n + 1),
          (-1 : ℚ) ^ k * (n.choose k : ℚ) * ((x - k - 1).choose (n + 1) : ℚ) := by
    rw [Finset.sum_range_succ']
    have hw0 : (-1 : ℚ) ^ 0 * (if (0 : ℕ) = 0 then (0 : ℚ) else (n.choose (0 - 1) : ℚ)) *
        ((x - 0).choose (n + 1) : ℚ) = 0 := by
      simp
    rw [hw0, add_zero, ← Finset.sum_neg_distrib]
    apply Finset.sum_congr rfl
    intro k _
    rw [if_neg (Nat.succ_ne_zero k), Nat.add_sub_cancel,
      show x - (k + 1) = x - k - 1 from by omega, pow_succ]
    ring
  rw [Gsum, show n + 1 + 1 = n + 2 from rfl, Finset.sum_congr rfl hsplit,
    Finset.sum_add_distrib, hu, hw, Gsum, ← sub_eq_add_neg,
    ← Finset.sum_sub_distrib]
  apply Finset.sum_congr rfl
  intro j hj
  rw [Finset.mem_range] at hj
  have hxj : x - j = (x - j - 1) + 1 := by omega
  have hchoose : ((x - j).choose (n + 1) : ℚ) =
      ((x - j - 1).choose n : ℚ) + ((x - j - 1).choose (n + 1) : ℚ) := by
    rw [hxj, Nat.choose_succ_succ (x - j - 1) n]
    push_cast
    ring
  rw [show x - 1 - j = x - j - 1 from by omega, hchoose]
  ring

theorem Gsum_eq_one : ∀ n x : ℕ, n ≤ x → Gsum n x = 1 := by
  intro n
  induction n with
  | zero => intro x _; exact Gsum_zero x
  | succ n ih =>
    intro x h
    rw [Gsum_succ_step n x h]
    exact ih (x - 1) (by omega)

theorem coeff_sum_one (dim level : ℕ) (hdim : 1 ≤ dim) :
    ((index_set dim level).map (fun idx => smolyakCoeff dim level idx)).sum
      = 1 := by
  obtain ⟨d, rfl⟩ : ∃ d, dim = d + 1 := ⟨dim - 1, by omega⟩
  rw [index_set]
  refine Eq.trans (filter_sum_group
    (fun s : ℕ => (-1 : ℚ) ^ (level + (d + 1) - s) *
      ((d + 1 - 1).choose (level + (d + 1) - s) : ℚ))
    (level + 1) (level + (d + 1))
    (cartProd (List.replicate (d + 1) (List.range' 1 (level + (d + 1)))))) ?_
  have hcnt : ∀ s ∈ Finset.Icc (level + 1) (level + (d + 1)),
      (cntSum (cartProd (List.replicate (d + 1)
          (List.range' 1 (level + (d + 1))))) s : ℚ) *
        ((-1 : ℚ) ^ (level + (d + 1) - s) *
          ((d + 1 - 1).choose (level + (d + 1) - s) : ℚ)) =
      ((s - 1).choose d : ℚ) *
        ((-1 : ℚ) ^ (level + (d + 1) - s) *
          ((d.choose (level + (d + 1) - s)) : ℚ)) := by
    intro s hs
    rw [Finset.mem_Icc] at hs
    rw [cntSum_cartProd (level + (d + 1)) d s (by omega) (by omega),
      Nat.add_sub_cancel]
  rw [Finset.sum_congr rfl hcnt, ← Nat.Ico_succ_right,
    Finset.sum_Ico_eq_sum_range]
  rw [show Nat.succ (level + (d + 1)) - (level + 1) = d + 1 from by omega]
  have hterm : ∀ i ∈ Finset.range (d + 1),
      (((level + 1 + i - 1).choose d : ℚ)) *
        ((-1 : ℚ) ^ (level + (d + 1) - (level + 1 + i)) *
          ((d.choose (level + (d + 1) - (level + 1 + i))) : ℚ)) =
      (fun j => (-1 : ℚ) ^ j * (d.choose j : ℚ) *
        ((level + d - j).choose d : ℚ)) (d + 1 - 1 - i) := by
    intro i hi
    rw [Finset.mem_range] at hi
    rw [show level + 1 + i - 1 = level + i from by omega,
      show level + (d + 1) - (level + 1 + i) = d - i from by omega]
    show ((level + i).choose d : ℚ) *
        ((-1 : ℚ) ^ (d - i) * ((d.choose (d - i)) : ℚ)) =
      (-1 : ℚ) ^ (d + 1 - 1 - i) * (d.choose (d + 1 - 1 - i) : ℚ) *
        ((level + d - (d + 1 - 1 - i)).choose d : ℚ)
    rw [show d + 1 - 1 - i = d - i from by omega,
      show level + d - (d - i) = level + i from by omega]
    ring
  rw [Finset.sum_congr rfl hterm]
  refine Eq.trans (Finset.sum_range_reflect
    (fun j => (-1 : ℚ) ^ j * (d.choose j : ℚ) *
      ((level + d - j).choose d : ℚ)) (d + 1)) ?_
  have hg := Gsum_eq_one d (level + d) (by omega)
  rw [Gsum] at hg
  exact hg

/-! ## Claims about the tensor rule and the Smolyak combination -/

/-- C7: for every multi-index and integer domain `a < b`,
`tensor_product_rule` maps each Cartesian-product point coordinate-wise by
`x' = (b-a)/2 * x + (a+b)/2` and scales each product weight by
`((b-a)/2)^dim`, and the resulting weights sum exactly to `(b-a)^dim`,
assuming each one-dimensional rule's weights sum exactly to `2`. -/
theorem tensor_rule_map_scale_weight_sum (indices : List ℕ)
    (one_d_rule : ℕ → List ℚ × List ℚ) (a b : ℤ) (hab : a < b)
    (hw : ∀ l ∈ indices, ((one_d_rule l).2).sum = 2) :
    tensor_product_rule indices one_d_rule (.int a) (.int b) =
      .ok (tensorPoints one_d_rule (a : ℚ) (b : ℚ) indices,
           tensorWeights one_d_rule (a : ℚ) (b : ℚ) indices) ∧
    (tensorWeights one_d_rule (a : ℚ) (b : ℚ) indices).sum =
      ((b : ℚ) - (a : ℚ)) ^ indices.length := by
  refine ⟨tensor_product_rule_ok indices one_d_rule a b hab, ?_⟩
  rw [tensorWeights_sum one_d_rule _ _ indices hw, ← mul_pow,
    div_mul_cancel₀ _ (two_ne_zero)]

theorem tensor_rule_map_scale_weight_sum_witness :
    tensor_product_rule [1] (fun _ => ([0], [2])) (.int 0) (.int 1) =
      .ok (tensorPoints (fun _ => ([0], [2])) ((0 : ℤ) : ℚ) ((1 : ℤ) : ℚ) [1],
           tensorWeights (fun _ => ([0], [2])) ((0 : ℤ) : ℚ) ((1 : ℤ) : ℚ) [1]) ∧
    (tensorWeights (fun _ => ([0], [2])) ((0 : ℤ) : ℚ) ((1 : ℤ) : ℚ) [1]).sum =
      (((1 : ℤ) : ℚ) - ((0 : ℤ) : ℚ)) ^ [1].length :=
  tensor_rule_map_scale_weight_sum [1] (fun _ => ([0], [2])) 0 1 (by decide)
    (fun _ _ => by simp)

/-- C3: for every multi-index produced by `index_set(dim, level)`, the sparse
grid applies the Smolyak coefficient
`(-1)^(level+dim-s) * C(dim-1, level+dim-s)` (with `s = sum(idx)` and the
binomial's first argument `dim - 1`, not `dim`) to that multi-index's
tensor-rule weights: the assembled output is exactly the concatenation over
the index set of the tensor points and the coefficient-scaled tensor
weights. -/
theorem smolyak_combination_formula (one_d_rule : ℕ → List ℚ × List ℚ)
    (dim level : ℕ) (a b : ℤ) (_hdim : 1 ≤ dim) (_hlevel : 1 ≤ level)
    (hab : a < b) :
    sparse_grid_with one_d_rule dim level (.int a) (.int b) =
      .ok ((index_set dim level).flatMap
             (fun idx => tensorPoints one_d_rule (a : ℚ) (b : ℚ) idx),
           (index_set dim level).flatMap
             (fun idx => (tensorWeights one_d_rule (a : ℚ) (b : ℚ) idx).map
               (fun wi => (-1 : ℚ) ^ (level + dim - idx.sum) *
                 ((dim - 1).choose (level + dim - idx.sum) : ℚ) * wi))) := by
  rw [sparse_grid_with, sparse_collect_ok one_d_rule dim level a b hab]
  rfl

theorem smolyak_combination_formula_witness :
    sparse_grid_with (fun _ => ([0], [2])) 1 1 (.int 0) (.int 1) =
      .ok ((index_set 1 1).flatMap
             (fun idx => tensorPoints (fun _ => ([0], [2]))
               ((0 : ℤ) : ℚ) ((1 : ℤ) : ℚ) idx),
           (index_set 1 1).flatMap
             (fun idx => (tensorWeights (fun _ => ([0], [2]))
                 ((0 : ℤ) : ℚ) ((1 : ℤ) : ℚ) idx).map
               (fun wi => (-1 : ℚ) ^ (1 + 1 - idx.sum) *
                 (((1 : ℕ) - 1).choose (1 + 1 - idx.sum) : ℚ) * wi))) :=
  smolyak_combination_formula (fun _ => ([0], [2])) 1 1 0 1 (by decide)
    (by decide) (by decide)

/-- C1: for every `dim ≥ 1` and `level ≥ 1` and every integer domain
`a < b`, the sum of all weights returned by the sparse-grid assembly equals
`(b-a)^dim` exactly, assuming the one-dimensional rule provider returns,
for each level, weights that sum exactly to `2` — even though individual
weights may be negative and points are not deduplicated. -/
theorem sparse_grid_weight_sum (one_d_rule : ℕ → List ℚ × List ℚ)
    (dim level : ℕ) (a b : ℤ) (hdim : 1 ≤ dim) (_hlevel : 1 ≤ level)
    (hab : a < b) (hw : ∀ l : ℕ, 1 ≤ l → ((one_d_rule l).2).sum = 2) :
    ∃ pts wts,
      sparse_grid_with one_d_rule dim level (.int a) (.int b) =
        .ok (pts, wts) ∧
      wts.sum = ((b : ℚ) - (a : ℚ)) ^ dim := by
  rw [sparse_grid_with, sparse_collect_ok one_d_rule dim level a b hab]
  refine ⟨_, _, rfl, ?_⟩
  rw [sum_flatMap]
  have hterm : ∀ idx ∈ index_set dim level,
      ((tensorWeights one_d_rule (a : ℚ) (b : ℚ) idx).map
        (fun wi => smolyakCoeff dim level idx * wi)).sum =
      smolyakCoeff dim level idx * (((b : ℚ) - (a : ℚ)) ^ dim) := by
    intro idx hidx
    obtain ⟨⟨hlen, hmem⟩, _⟩ := mem_index_set_iff.1 hidx
    rw [sum_map_const_mul, tensorWeights_sum one_d_rule _ _ idx
      (fun l hl => hw l (hmem l hl).1), hlen]
    congr 1
    rw [← mul_pow, div_mul_cancel₀ _ (two_ne_zero)]
  rw [List.map_congr_left hterm, sum_map_fn_mul_const,
    coeff_sum_one dim level hdim, one_mul]

theorem sparse_grid_weight_sum_witness :
    ∃ pts wts,
      sparse_grid_with (fun _ => ([0], [2])) 1 1 (.int 0) (.int 1) =
        .ok (pts, wts) ∧
      wts.sum = (((1 : ℤ) : ℚ) - ((0 : ℤ) : ℚ)) ^ 1 :=
  sparse_grid_weight_sum (fun _ => ([0], [2])) 1 1 0 1 (by decide) (by decide)
    (by decide) (fun _ _ => by simp)
